import Mathlib

/-!
Verification of the Gomoku agent `ve_gomoku_agent.py`: a shallow embedding of
its board analyzer (five-in-a-row oracle, threat scanning, blunder detection)
and move selector, with theorems checking the documented behaviour.

The Python board is an 8x8 list of lists holding the characters 'X', 'O' and
'.'.  It is embedded as a total function from integer coordinates to
characters; every loop in the source guards its indices to [0, 8) before any
access, so the values outside that square are irrelevant.  Functions that
mutate the board and restore it (`_five_in_row_if_place`,
`_move_gives_opp_immediate_win`) are embedded with the board threaded
explicitly, so that the restoration behaviour is itself a provable statement.
-/

namespace VEGomoku

def Board : Type := Int → Int → Char

/-- The assignment `board[r][c] = v` of the source, modelled functionally. -/
def place (b : Board) (r c : Int) (v : Char) : Board :=
  fun r' c' => if r' = r ∧ c' = c then v else b r' c'

/-- `0 <= r < 8 and 0 <= c < 8`: the guard every while loop in the source uses. -/
def InR (r c : Int) : Prop := 0 ≤ r ∧ r < 8 ∧ 0 ≤ c ∧ c < 8

instance (r c : Int) : Decidable (InR r c) := by unfold InR; exact inferInstance

/-- The four scan directions of the source: `[(0,1), (1,0), (1,1), (1,-1)]`. -/
def directions : List (Int × Int) := [(0,1), (1,0), (1,1), (1,-1)]

/-- One while loop of `_five_in_row_if_place` / `_score_move`: starting at
`(r, c)` and stepping by `(dr, dc)`, the number of consecutive in-range cells
holding `p`.  Every direction used moves one coordinate by ±1 each step, so a
fuel of 8 reproduces the unbounded Python loop exactly. -/
def countDir : Nat → Board → Int → Int → Int → Int → Char → Nat
  | 0, _, _, _, _, _, _ => 0
  | fuel+1, b, r, c, dr, dc, p =>
    if 0 ≤ r ∧ r < 8 ∧ 0 ≤ c ∧ c < 8 ∧ b r c = p then
      countDir fuel b (r + dr) (c + dc) dr dc p + 1
    else 0

/-- `_five_in_row_if_place`, with the board threaded explicitly: the source
sets `board[r][c] = player`, counts runs through `(r, c)` in the four
directions, and sets `board[r][c] = '.'` again before returning. -/
def five_in_row_if_place_st (b : Board) (r c : Int) (p : Char) : Bool × Board :=
  if b r c ≠ '.' then (false, b)
  else
    let b1 := place b r c p
    let won := directions.any (fun d =>
      decide (5 ≤ 1 + countDir 8 b1 (r + d.1) (c + d.2) d.1 d.2 p
                    + countDir 8 b1 (r - d.1) (c - d.2) (-d.1) (-d.2) p))
    (won, place b1 r c '.')

/-- The boolean result of `_five_in_row_if_place`. -/
def five_in_row_if_place (b : Board) (r c : Int) (p : Char) : Bool :=
  (five_in_row_if_place_st b r c p).1

/-- `for r in range(8): for c in range(8):` as a list of integer pairs. -/
def scanCells : List (Int × Int) :=
  (List.range 8).flatMap (fun r => (List.range 8).map (fun c : Nat => ((r : Int), (c : Int))))

/-- The rr/cc double loop of `_move_gives_opp_immediate_win`, threading the
board through the `_five_in_row_if_place` calls, with the early return on the
first winning reply found. -/
def blunder_scan (opp : Char) : List (Int × Int) → Board → Bool × Board
  | [], b => (false, b)
  | q :: rest, b =>
    if b q.1 q.2 = '.' then
      let res := five_in_row_if_place_st b q.1 q.2 opp
      if res.1 then (true, res.2) else blunder_scan opp rest res.2
    else blunder_scan opp rest b

/-- `_move_gives_opp_immediate_win`, board threaded explicitly: occupied cells
are unsafe; otherwise place `me`, scan all cells for a winning reply of `opp`,
and restore the cell before returning. -/
def move_gives_opp_immediate_win_st (b : Board) (move : Int × Int) (me opp : Char) :
    Bool × Board :=
  if b move.1 move.2 ≠ '.' then (true, b)
  else
    let b1 := place b move.1 move.2 me
    let res := blunder_scan opp scanCells b1
    (res.1, place res.2 move.1 move.2 '.')

/-- The boolean result of `_move_gives_opp_immediate_win`. -/
def move_gives_opp_immediate_win (b : Board) (move : Int × Int) (me opp : Char) : Bool :=
  (move_gives_opp_immediate_win_st b move me opp).1

/-- The backward walk at the top of `_check_line_for_threat`: step against the
direction while the previous cell is still on the board, reaching the start of
the board line through `(r, c)`. -/
def lineStart : Nat → Int → Int → Int → Int → Int × Int
  | 0, r, c, _, _ => (r, c)
  | fuel+1, r, c, dr, dc =>
    if 0 ≤ r - dr ∧ r - dr < 8 ∧ 0 ≤ c - dc ∧ c - dc < 8 then
      lineStart fuel (r - dr) (c - dc) dr dc
    else (r, c)

/-- The forward walk of `_check_line_for_threat`: collect the cells from
`(r, c)` along `(dr, dc)` while they are on the board. -/
def buildLine : Nat → Int → Int → Int → Int → List (Int × Int)
  | 0, _, _, _, _ => []
  | fuel+1, r, c, dr, dc =>
    if 0 ≤ r ∧ r < 8 ∧ 0 ≤ c ∧ c < 8 then
      (r, c) :: buildLine fuel (r + dr) (c + dc) dr dc
    else []

/-- The body of the 5-window scan in `_check_line_for_threat`: the threat
positions contributed by one 5-cell window. -/
def windowThreats5 (b : Board) (p opp : Char) (target : Nat)
    (window : List (Int × Int)) : List (Int × Int) :=
  let pieces := window.map (fun q => b q.1 q.2)
  let pc := pieces.count p
  let ec := pieces.count '.'
  let oc := pieces.count opp
  if target = 4 ∧ pc = 4 ∧ ec = 1 ∧ oc = 0 then
    [window.getD (pieces.indexOf '.') ((0 : Int), (0 : Int))]
  else if target = 3 ∧ pc = 3 ∧ ec = 2 ∧ oc = 0 then
    if pieces.getD 0 'X' = '.' ∧ pieces.getD 1 'X' = p ∧ pieces.getD 2 'X' = p ∧
        pieces.getD 3 'X' = p ∧ pieces.getD 4 'X' = '.' then
      [window.getD 0 ((0 : Int), (0 : Int)), window.getD 4 ((0 : Int), (0 : Int))]
    else
      ((window.zip pieces).filter (fun q => q.2 = '.')).map Prod.fst
  else if target = 3 ∧ pc = 3 ∧ ec = 1 ∧ oc = 1 then
    [window.getD (pieces.indexOf '.') ((0 : Int), (0 : Int))]
  else []

/-- The body of the edge 4-window scan in `_check_line_for_threat`. -/
def windowThreats4 (b : Board) (p opp : Char) (window : List (Int × Int)) :
    List (Int × Int) :=
  let pieces := window.map (fun q => b q.1 q.2)
  if pieces.count p = 3 ∧ pieces.count '.' = 1 ∧ pieces.count opp = 0 then
    (if pieces.getD 0 'X' = '.' then [window.getD 0 ((0 : Int), (0 : Int))] else []) ++
    (if pieces.getD 3 'X' = '.' then [window.getD 3 ((0 : Int), (0 : Int))] else [])
  else []

/-- `_check_line_for_threat`: walk to the start of the board line through the
given cell, collect the whole line, scan its 5-windows (and, for
`target = 3`, its 4-windows) for threat patterns. -/
def check_line_for_threat (b : Board) (startR startC dr dc : Int) (p : Char)
    (target : Nat) : List (Int × Int) :=
  let s := lineStart 8 startR startC dr dc
  let line := buildLine 8 s.1 s.2 dr dc
  let opp := if p = 'X' then 'O' else 'X'
  let five := (List.range (line.length - 4)).flatMap
    (fun i => windowThreats5 b p opp target ((line.drop i).take 5))
  let four := if target = 3 ∧ 4 ≤ line.length then
      (List.range (line.length - 3)).flatMap
        (fun i => windowThreats4 b p opp ((line.drop i).take 4))
    else []
  five ++ four

/-- `_find_all_threats`: union over every start cell and direction.  The
source collects the results in a set; only membership in the result is ever
meaningful, so the embedding keeps the concatenated list. -/
def find_all_threats (b : Board) (p : Char) (target : Nat) : List (Int × Int) :=
  scanCells.flatMap (fun q =>
    directions.flatMap (fun d => check_line_for_threat b q.1 q.2 d.1 d.2 p target))

/-- `_score_move`: −1 on an occupied cell, otherwise 10·(longest run through
the cell after placing `me`) + (number of directions whose run reaches 3). -/
def score_move (b : Board) (r c : Int) (me : Char) : Int :=
  if b r c ≠ '.' then -1
  else
    let b1 := place b r c me
    let counts := directions.map (fun d =>
      1 + countDir 8 b1 (r + d.1) (c + d.2) d.1 d.2 me
        + countDir 8 b1 (r - d.1) (c - d.2) (-d.1) (-d.2) me)
    let best := counts.foldl max 0
    let forks := (counts.filter (fun n => decide (3 ≤ n))).length
    (best : Int) * 10 + (forks : Int)

/-- `_center_dist`, scaled by 2 to stay in ℤ: the source computes
`|r − 3.5| + |c − 3.5|` as a float; its values are half-integers and only
their relative order is ever used (as a min key), so the doubled integer
`|2r − 7| + |2c − 7|` is an exact order-preserving replacement. -/
def center_dist2 (m : Int × Int) : Int := |2 * m.1 - 7| + |2 * m.2 - 7|

/-- Python's builtin `min` over a list with a key function: the first element
whose key is lexicographically least, `none` on the empty list (where the
builtin raises ValueError). -/
def minBy (key : Int × Int → Int × Int) : List (Int × Int) → Option (Int × Int)
  | [] => none
  | m :: ms => some (ms.foldl (fun best x =>
      if (key x).1 < (key best).1 ∨ ((key x).1 = (key best).1 ∧ (key x).2 < (key best).2)
      then x else best) m)

/-- The ranking key `(-score, center_dist)` used by `_pick_best` and the
stage-5/6 fallbacks of `_get_strategic_move`. -/
def selKey (b : Board) (me : Char) (m : Int × Int) : Int × Int :=
  (-(score_move b m.1 m.2 me), center_dist2 m)

/-- The `safe = [...]; pool = safe or all` idiom the source repeats in
`_pick_best`, stage 5 and stage 6 of `_get_strategic_move`, and the
`get_move` fallback: the blunder-free subset if it is non-empty, otherwise
the whole list. -/
def blunder_filtered (b : Board) (me opp : Char) (moves : List (Int × Int)) :
    List (Int × Int) :=
  let safe := moves.filter (fun m => ! move_gives_opp_immediate_win b m me opp)
  if safe.isEmpty then moves else safe

/-- `_pick_best`. -/
def pick_best (candidates legal : List (Int × Int)) (b : Board) (me opp : Char)
    (avoid_blunders : Bool) : Option (Int × Int) :=
  let moves := candidates.filter (fun m => decide (m ∈ legal))
  if moves.isEmpty then none
  else minBy (selKey b me)
    (if avoid_blunders then blunder_filtered b me opp moves else moves)

/-- `sum(row.count('X') + row.count('O') for row in board)`. -/
def count_stones (b : Board) : Nat :=
  (scanCells.filter (fun q => decide (b q.1 q.2 = 'X' ∨ b q.1 q.2 = 'O'))).length

/-- `_get_strategic_move`: the six-stage priority chain. -/
def get_strategic_move (b : Board) (me opp : Char) (legal : List (Int × Int)) :
    Option (Int × Int) :=
  let winMoves := legal.filter (fun m => five_in_row_if_place b m.1 m.2 me)
  match pick_best winMoves legal b me opp false with
  | some m => some m
  | none =>
    match pick_best (find_all_threats b opp 4) legal b me opp true with
    | some m => some m
    | none =>
      match pick_best (find_all_threats b opp 3) legal b me opp true with
      | some m => some m
      | none =>
        match pick_best (find_all_threats b me 3) legal b me opp true with
        | some m => some m
        | none =>
          match (if count_stones b < 10 then
              minBy (selKey b me) (blunder_filtered b me opp
                (legal.filter (fun m => decide (center_dist2 m ≤ 6))))
            else none) with
          | some m => some m
          | none => minBy (selKey b me) (blunder_filtered b me opp legal)

/-- The emergency fallback at the bottom of `get_move`: blunder-free legal
moves if any exist, otherwise all legal moves, minimised by centre distance
alone (the second key component is constant).  `none` models the ValueError
Python's `min` raises on an empty sequence. -/
def emergency_fallback (b : Board) (me opp : Char) (legal : List (Int × Int)) :
    Option (Int × Int) :=
  minBy (fun m => (center_dist2 m, 0)) (blunder_filtered b me opp legal)

/-- One `llm.complete` invocation: the oracle `llm` gives, per invocation
index, the usable move the glue extracts from the completion (`some (row, col)`
when a brace-delimited JSON object with integer fields was found, `none` for a
missing/malformed reply or a raised exception).  Returns the reply together
with the advanced invocation count. -/
def ask_llm (llm : Nat → Option (Int × Int)) (calls : Nat) :
    Option (Int × Int) × Nat :=
  (llm calls, calls + 1)

/-- `get_move`, with the model call abstracted as the oracle `llm`.  The
source awaits `self.llm.complete` exactly once, accepts the extracted move iff
it is legal and not an immediate blunder, and otherwise falls to the
emergency fallback.  Returns the chosen move and the number of model
invocations performed. -/
def get_move_t (b : Board) (me opp : Char) (legal : List (Int × Int))
    (llm : Nat → Option (Int × Int)) : Option (Int × Int) × Nat :=
  let r0 := ask_llm llm 0
  let result :=
    match r0.1 with
    | some m =>
      if m ∈ legal ∧ move_gives_opp_immediate_win b m me opp = false then some m
      else emergency_fallback b me opp legal
    | none => emergency_fallback b me opp legal
  (result, r0.2)

/-- The move returned by `get_move` for a given extracted model reply. -/
def get_move (b : Board) (me opp : Char) (legal : List (Int × Int))
    (reply : Option (Int × Int)) : Option (Int × Int) :=
  (get_move_t b me opp legal (fun _ => reply)).1

/-- `_parse_board_from_string`, applied to the list of lines of the input:
keep the 'X'/'O'/'.' characters of each line, keep only lines contributing
exactly 8 such tokens, pad with empty rows to 8 rows, truncate to 8 rows. -/
def parse_board_lines (lines : List (List Char)) : List (List Char) :=
  let rows := (lines.map (fun line =>
      line.filter (fun ch => decide (ch = 'X' ∨ ch = 'O' ∨ ch = '.')))).filter
      (fun t => decide (t.length = 8))
  (rows ++ List.replicate (8 - rows.length) (List.replicate 8 '.')).take 8

/-- `_parse_board_from_string` on the raw string: strip, split on newlines,
then process the lines. -/
def parse_board_from_string (s : String) : List (List Char) :=
  parse_board_lines ((s.trim.splitOn "\n").map String.toList)

/-- A concrete board from a row list, for witnesses and counterexamples. -/
def boardOfRows (rows : List (List Char)) : Board :=
  fun r c => if 0 ≤ r ∧ 0 ≤ c then (rows.getD r.toNat []).getD c.toNat '.' else '.'

/-- Scenario B of the spec: row 3 holds X at columns 1, 2, 3, 4, rest empty. -/
def scenarioB : Board := boardOfRows
  [[], [], [], ['.', 'X', 'X', 'X', 'X', '.', '.', '.']]

/-- Scenario C of the spec: row 2 holds O at columns 2, 3, 4, rest empty. -/
def scenarioC : Board := boardOfRows
  [[], [], ['.', '.', 'O', 'O', 'O', '.', '.', '.']]

/-- A board with two simultaneous O four-threats (rows 0 and 2, columns 0-3):
blocking either gap leaves the other open, so every block is a one-ply
blunder for X. -/
def doubleFourBoard : Board := boardOfRows
  [['O', 'O', 'O', 'O', '.', '.', '.', '.'],
   [],
   ['O', 'O', 'O', 'O', '.', '.', '.', '.']]

/-- A small legal-move list containing both block candidates of
`doubleFourBoard` and one unrelated move. -/
def doubleFourLegal : List (Int × Int) := [(0, 4), (2, 4), (5, 5)]

/-- The all-empty board. -/
def emptyBoard : Board := boardOfRows []

/-- The maximal in-range run positions `(r + j*dr, c + j*dc)`, `j = 1..n`, all
on the board and all holding `p`: the property the spec ascribes to one
direction of the counting loop of `would_win`. -/
def specRun (b : Board) (r c dr dc : Int) (p : Char) (n : Nat) : Prop :=
  ∀ j : Nat, 1 ≤ j → j ≤ n →
    InR (r + j * dr) (c + j * dc) ∧ b (r + j * dr) (c + j * dc) = p

/-- The spec's description of `would_win` / `_five_in_row_if_place`: the cell
is empty and in some one of the four directions the contiguous same-stone run
through it — backward plus forward, the cell itself counted once, stopping at
board boundaries — reaches length at least 5. -/
def would_win_spec (b : Board) (r c : Int) (p : Char) : Prop :=
  b r c = '.' ∧ ∃ d ∈ directions, ∃ back fwd : Nat, 4 ≤ back + fwd ∧
    specRun b r c (-d.1) (-d.2) p back ∧ specRun b r c d.1 d.2 p fwd

/-- The cells `s`, `s + d`, …, `s + (n−1)·d`: the closed form of the line the
scanner walks. -/
def lineOf (s d : Int × Int) (n : Nat) : List (Int × Int) :=
  (List.range n).map (fun k : Nat => (s.1 + (k : Int) * d.1, s.2 + (k : Int) * d.2))

/-- The `i`-th cell of the window anchored at `w` along direction `d`. -/
def wcell (w d : Int × Int) (i : Nat) : Int × Int :=
  (w.1 + (i : Int) * d.1, w.2 + (i : Int) * d.2)

/-! ### Restoration of the board by the hypothetical-placement oracles -/

theorem place_restore (b : Board) (r c : Int) (p : Char) (h : b r c = '.') :
    place (place b r c p) r c '.' = b := by
  funext r' c'
  simp only [place]
  split_ifs with hrc
  · obtain ⟨h1, h2⟩ := hrc
    rw [h1, h2, h]
  · rfl

theorem five_st_board (b : Board) (r c : Int) (p : Char) :
    (five_in_row_if_place_st b r c p).2 = b := by
  unfold five_in_row_if_place_st
  split_ifs with h
  · rfl
  · push_neg at h
    exact place_restore b r c p h

theorem blunder_scan_board (opp : Char) (cells : List (Int × Int)) (b : Board) :
    (blunder_scan opp cells b).2 = b := by
  induction cells generalizing b with
  | nil => rfl
  | cons q rest ih =>
    unfold blunder_scan
    split_ifs with h
    · by_cases hw : (five_in_row_if_place_st b q.1 q.2 opp).1
      · simp only [hw, if_true]
        exact five_st_board b q.1 q.2 opp
      · simp only [hw, if_false, Bool.false_eq_true]
        rw [ih, five_st_board]
    · exact ih b

theorem move_st_board (b : Board) (m : Int × Int) (me opp : Char) :
    (move_gives_opp_immediate_win_st b m me opp).2 = b := by
  unfold move_gives_opp_immediate_win_st
  split_ifs with h
  · rfl
  · push_neg at h
    simp only
    rw [blunder_scan_board]
    exact place_restore b m.1 m.2 me h

/-! ### The counting loop -/

theorem countDir_le (fuel : Nat) (b : Board) (r c dr dc : Int) (p : Char) :
    countDir fuel b r c dr dc p ≤ fuel := by
  induction fuel generalizing r c with
  | zero => exact Nat.le_refl 0
  | succ f ih =>
    unfold countDir
    split_ifs with h
    · exact Nat.succ_le_succ (ih (r + dr) (c + dc))
    · exact Nat.zero_le _

theorem countDir_ge (m : Nat) : ∀ (fuel : Nat) (b : Board) (r c dr dc : Int) (p : Char),
    m ≤ fuel →
    (∀ j : Nat, j < m → InR (r + j * dr) (c + j * dc) ∧ b (r + j * dr) (c + j * dc) = p) →
    m ≤ countDir fuel b r c dr dc p := by
  induction m with
  | zero => intro fuel b r c dr dc p _ _; exact Nat.zero_le _
  | succ n ih =>
    intro fuel b r c dr dc p hf hx
    obtain ⟨f, rfl⟩ : ∃ f, fuel = f + 1 := ⟨fuel - 1, by omega⟩
    have h0 := hx 0 (Nat.succ_pos n)
    simp only [Nat.cast_zero, zero_mul, add_zero] at h0
    unfold countDir
    rw [if_pos ⟨h0.1.1, h0.1.2.1, h0.1.2.2.1, h0.1.2.2.2, h0.2⟩]
    have hrec : n ≤ countDir f b (r + dr) (c + dc) dr dc p := by
      refine ih f b (r + dr) (c + dc) dr dc p (by omega) ?_
      intro j hj
      have := hx (j + 1) (by omega)
      constructor
      · have e1 : r + dr + j * dr = r + (j + 1 : Nat) * dr := by push_cast; ring
        have e2 : c + dc + j * dc = c + (j + 1 : Nat) * dc := by push_cast; ring
        rw [e1, e2]; exact this.1
      · have e1 : r + dr + j * dr = r + (j + 1 : Nat) * dr := by push_cast; ring
        have e2 : c + dc + j * dc = c + (j + 1 : Nat) * dc := by push_cast; ring
        rw [e1, e2]; exact this.2
    omega

theorem countDir_mem : ∀ (fuel : Nat) (b : Board) (r c dr dc : Int) (p : Char)
    (j : Nat), j < countDir fuel b r c dr dc p →
    InR (r + j * dr) (c + j * dc) ∧ b (r + j * dr) (c + j * dc) = p := by
  intro fuel
  induction fuel with
  | zero => intro b r c dr dc p j hj; simp [countDir] at hj
  | succ f ih =>
    intro b r c dr dc p j hj
    unfold countDir at hj
    split_ifs at hj with h
    · match j with
      | 0 =>
        simp only [Nat.cast_zero, zero_mul, add_zero]
        exact ⟨⟨h.1, h.2.1, h.2.2.1, h.2.2.2.1⟩, h.2.2.2.2⟩
      | j' + 1 =>
        have := ih b (r + dr) (c + dc) dr dc p j' (by omega)
        have e1 : r + dr + j' * dr = r + (j' + 1 : Nat) * dr := by push_cast; ring
        have e2 : c + dc + j' * dc = c + (j' + 1 : Nat) * dc := by push_cast; ring
        rw [e1, e2] at this
        exact this
    · omega

/-- The cell the backward loop inspects is never the hypothetically placed
cell, for any of the four directions. -/
theorem place_eval_off (b : Board) (r c : Int) (v : Char) (dr dc : Int)
    (hd : ¬(dr = 0 ∧ dc = 0)) (j : Nat) (hj : 1 ≤ j) :
    place b r c v (r + j * dr) (c + j * dc) = b (r + j * dr) (c + j * dc) := by
  simp only [place]
  rw [if_neg]
  rintro ⟨h1, h2⟩
  have hdr : (j : Int) * dr = 0 := by omega
  have hdc : (j : Int) * dc = 0 := by omega
  have hjz : (j : Int) ≠ 0 := by omega
  exact hd ⟨by exact_mod_cast mul_eq_zero.mp hdr |>.resolve_left hjz,
            by exact_mod_cast mul_eq_zero.mp hdc |>.resolve_left hjz⟩

theorem dir_cases {d : Int × Int} (hd : d ∈ directions) :
    d = (0, 1) ∨ d = (1, 0) ∨ d = (1, 1) ∨ d = (1, -1) := by
  simp only [directions, List.mem_cons, List.not_mem_nil, or_false] at hd
  exact hd

theorem dir_facts {d : Int × Int} (hd : d ∈ directions) : ¬(d.1 = 0 ∧ d.2 = 0) := by
  rcases dir_cases hd with h | h | h | h <;> rw [h] <;> simp

/-- The characterization of `_five_in_row_if_place` as the spec states it. -/
theorem five_iff (b : Board) (r c : Int) (p : Char) :
    five_in_row_if_place b r c p = true ↔ would_win_spec b r c p := by
  unfold five_in_row_if_place five_in_row_if_place_st would_win_spec
  split_ifs with h
  · simp only [Bool.false_eq_true, false_iff]
    rintro ⟨h', _⟩
    exact h h'
  · push_neg at h
    simp only [List.any_eq_true, decide_eq_true_eq]
    constructor
    · rintro ⟨d, hd, hcnt⟩
      refine ⟨h, d, hd, countDir 8 (place b r c p) (r - d.1) (c - d.2) (-d.1) (-d.2) p,
        countDir 8 (place b r c p) (r + d.1) (c + d.2) d.1 d.2 p, by omega, ?_, ?_⟩
      · intro j h1 h2
        have := countDir_mem 8 (place b r c p) (r - d.1) (c - d.2) (-d.1) (-d.2) p
          (j - 1) (by omega)
        have e1 : r - d.1 + (j - 1 : Nat) * -d.1 = r + j * -d.1 := by
          have : ((j - 1 : Nat) : Int) = (j : Int) - 1 := by omega
          rw [this]; ring
        have e2 : c - d.2 + (j - 1 : Nat) * -d.2 = c + j * -d.2 := by
          have : ((j - 1 : Nat) : Int) = (j : Int) - 1 := by omega
          rw [this]; ring
        rw [e1, e2] at this
        refine ⟨this.1, ?_⟩
        rw [← place_eval_off b r c p (-d.1) (-d.2) (by have := dir_facts hd; omega) j h1]
        exact this.2
      · intro j h1 h2
        have := countDir_mem 8 (place b r c p) (r + d.1) (c + d.2) d.1 d.2 p
          (j - 1) (by omega)
        have e1 : r + d.1 + (j - 1 : Nat) * d.1 = r + j * d.1 := by
          have : ((j - 1 : Nat) : Int) = (j : Int) - 1 := by omega
          rw [this]; ring
        have e2 : c + d.2 + (j - 1 : Nat) * d.2 = c + j * d.2 := by
          have : ((j - 1 : Nat) : Int) = (j : Int) - 1 := by omega
          rw [this]; ring
        rw [e1, e2] at this
        refine ⟨this.1, ?_⟩
        rw [← place_eval_off b r c p d.1 d.2 (dir_facts hd) j h1]
        exact this.2
    · rintro ⟨-, d, hd, back, fwd, hbf, hback, hfwd⟩
      refine ⟨d, hd, ?_⟩
      have hB : min back 8 ≤ countDir 8 (place b r c p) (r - d.1) (c - d.2) (-d.1) (-d.2) p := by
        refine countDir_ge (min back 8) 8 _ _ _ _ _ _ (Nat.min_le_right _ _) ?_
        intro j hj
        have := hback (j + 1) (by omega) (by omega)
        have e1 : r - d.1 + j * -d.1 = r + (j + 1 : Nat) * -d.1 := by push_cast; ring
        have e2 : c - d.2 + j * -d.2 = c + (j + 1 : Nat) * -d.2 := by push_cast; ring
        rw [e1, e2]
        refine ⟨this.1, ?_⟩
        rw [place_eval_off b r c p (-d.1) (-d.2) (by have := dir_facts hd; omega) (j + 1) (by omega)]
        exact this.2
      have hF : min fwd 8 ≤ countDir 8 (place b r c p) (r + d.1) (c + d.2) d.1 d.2 p := by
        refine countDir_ge (min fwd 8) 8 _ _ _ _ _ _ (Nat.min_le_right _ _) ?_
        intro j hj
        have := hfwd (j + 1) (by omega) (by omega)
        have e1 : r + d.1 + j * d.1 = r + (j + 1 : Nat) * d.1 := by push_cast; ring
        have e2 : c + d.2 + j * d.2 = c + (j + 1 : Nat) * d.2 := by push_cast; ring
        rw [e1, e2]
        refine ⟨this.1, ?_⟩
        rw [place_eval_off b r c p d.1 d.2 (dir_facts hd) (j + 1) (by omega)]
        exact this.2
      omega

/-! ### The full-board scan of the blunder oracle -/

theorem scanCells_mem (q : Int × Int) : q ∈ scanCells ↔ InR q.1 q.2 := by
  constructor
  · intro hq
    rcases List.mem_flatMap.mp hq with ⟨r, hr, hq2⟩
    rcases List.mem_map.mp hq2 with ⟨c, hc, rfl⟩
    rw [List.mem_range] at hr hc
    exact ⟨by omega, by omega, by omega, by omega⟩
  · rintro ⟨h1, h2, h3, h4⟩
    refine List.mem_flatMap.mpr ⟨q.1.toNat, List.mem_range.mpr (by omega), ?_⟩
    refine List.mem_map.mpr ⟨q.2.toNat, List.mem_range.mpr (by omega), ?_⟩
    rw [Int.toNat_of_nonneg h1, Int.toNat_of_nonneg h3]

theorem blunder_scan_iff (opp : Char) (cells : List (Int × Int)) (b : Board) :
    (blunder_scan opp cells b).1 = true ↔
      ∃ q ∈ cells, b q.1 q.2 = '.' ∧ five_in_row_if_place b q.1 q.2 opp = true := by
  induction cells with
  | nil => simp [blunder_scan]
  | cons q rest ih =>
    unfold blunder_scan
    split_ifs with h
    · by_cases hw : (five_in_row_if_place_st b q.1 q.2 opp).1
      · simp only [hw, if_true]
        constructor
        · intro _
          exact ⟨q, List.mem_cons_self q rest, h, hw⟩
        · intro _; trivial
      · simp only [hw, if_false, Bool.false_eq_true, five_st_board, ih]
        constructor
        · rintro ⟨q', hq', hdot, hfive⟩
          exact ⟨q', List.mem_cons_of_mem q hq', hdot, hfive⟩
        · rintro ⟨q', hq', hdot, hfive⟩
          rcases List.mem_cons.mp hq' with rfl | hq'
          · exact absurd hfive hw
          · exact ⟨q', hq', hdot, hfive⟩
    · rw [ih]
      constructor
      · rintro ⟨q', hq', hdot, hfive⟩
        exact ⟨q', List.mem_cons_of_mem q hq', hdot, hfive⟩
      · rintro ⟨q', hq', hdot, hfive⟩
        rcases List.mem_cons.mp hq' with rfl | hq'
        · exact absurd hdot h
        · exact ⟨q', hq', hdot, hfive⟩

/-! ### The move selector -/

theorem foldl_choose_mem (f : (Int × Int) → (Int × Int) → (Int × Int))
    (hf : ∀ a x, f a x = a ∨ f a x = x) :
    ∀ (t : List (Int × Int)) (a : Int × Int), t.foldl f a ∈ a :: t := by
  intro t
  induction t with
  | nil => intro a; exact List.mem_singleton.mpr rfl
  | cons x t ih =>
    intro a
    simp only [List.foldl_cons]
    rcases hf a x with h | h <;> rw [h]
    · rcases List.mem_cons.mp (ih a) with h' | h'
      · exact List.mem_cons.mpr (Or.inl h')
      · exact List.mem_cons_of_mem a (List.mem_cons_of_mem x h')
    · exact List.mem_cons_of_mem a (ih x)

theorem minBy_mem (key : Int × Int → Int × Int) (l : List (Int × Int)) (m : Int × Int)
    (h : minBy key l = some m) : m ∈ l := by
  match l with
  | [] => simp [minBy] at h
  | a :: t =>
    simp only [minBy, Option.some.injEq] at h
    rw [← h]
    exact foldl_choose_mem _ (fun a x => by split_ifs <;> simp) t a

theorem minBy_eq_none_iff (key : Int × Int → Int × Int) (l : List (Int × Int)) :
    minBy key l = none ↔ l = [] := by
  match l with
  | [] => simp [minBy]
  | a :: t => simp [minBy]

theorem minBy_isSome (key : Int × Int → Int × Int) (l : List (Int × Int)) (h : l ≠ []) :
    ∃ m, minBy key l = some m ∧ m ∈ l := by
  match hml : minBy key l with
  | none => exact absurd ((minBy_eq_none_iff key l).mp hml) h
  | some m => exact ⟨m, rfl, minBy_mem key l m hml⟩

theorem bf_mem (b : Board) (me opp : Char) (moves : List (Int × Int)) (m : Int × Int)
    (h : m ∈ blunder_filtered b me opp moves) : m ∈ moves := by
  simp only [blunder_filtered] at h
  split_ifs at h with hs
  · exact h
  · exact List.mem_of_mem_filter h

theorem bf_ne_nil (b : Board) (me opp : Char) (moves : List (Int × Int))
    (h : moves ≠ []) : blunder_filtered b me opp moves ≠ [] := by
  simp only [blunder_filtered]
  split_ifs with hs
  · exact h
  · rw [List.isEmpty_iff] at hs
    exact hs

theorem bf_nil (b : Board) (me opp : Char) : blunder_filtered b me opp [] = [] := rfl

theorem pick_best_none_iff (cand legal : List (Int × Int)) (b : Board) (me opp : Char)
    (av : Bool) :
    pick_best cand legal b me opp av = none ↔
      cand.filter (fun m => decide (m ∈ legal)) = [] := by
  simp only [pick_best]
  by_cases h : (cand.filter (fun m => decide (m ∈ legal))).isEmpty
  · rw [if_pos h]
    simp only [true_iff]
    exact List.isEmpty_iff.mp h
  · rw [if_neg h]
    rw [List.isEmpty_iff] at h
    simp only [iff_false_intro h, iff_false]
    rw [minBy_eq_none_iff]
    cases av
    · simpa using h
    · simpa using bf_ne_nil b me opp _ h

theorem pick_best_some_mem (cand legal : List (Int × Int)) (b : Board) (me opp : Char)
    (av : Bool) (m : Int × Int) (h : pick_best cand legal b me opp av = some m) :
    m ∈ cand ∧ m ∈ legal := by
  simp only [pick_best] at h
  by_cases hmv : (cand.filter (fun m => decide (m ∈ legal))).isEmpty
  · rw [if_pos hmv] at h
    exact absurd h (by simp)
  · rw [if_neg hmv] at h
    have h1 := minBy_mem _ _ _ h
    have hmem : m ∈ cand.filter (fun m => decide (m ∈ legal)) := by
      cases av
      · simpa using h1
      · exact bf_mem b me opp _ m (by simpa using h1)
    have := List.mem_filter.mp hmem
    exact ⟨this.1, of_decide_eq_true this.2⟩

theorem ef_none_iff (b : Board) (me opp : Char) (legal : List (Int × Int)) :
    emergency_fallback b me opp legal = none ↔ legal = [] := by
  unfold emergency_fallback
  rw [minBy_eq_none_iff]
  constructor
  · intro hbf
    by_contra hne
    exact bf_ne_nil b me opp legal hne hbf
  · rintro rfl
    exact bf_nil b me opp

theorem ef_some_mem (b : Board) (me opp : Char) (legal : List (Int × Int)) (m : Int × Int)
    (h : emergency_fallback b me opp legal = some m) : m ∈ legal := by
  unfold emergency_fallback at h
  exact bf_mem b me opp legal m (minBy_mem _ _ _ h)

theorem ef_isSome (b : Board) (me opp : Char) (legal : List (Int × Int)) (h : legal ≠ []) :
    ∃ m, emergency_fallback b me opp legal = some m ∧ m ∈ legal := by
  match hef : emergency_fallback b me opp legal with
  | none => exact absurd ((ef_none_iff b me opp legal).mp hef) h
  | some m => exact ⟨m, rfl, ef_some_mem b me opp legal m hef⟩

theorem gsm_some_mem (b : Board) (me opp : Char) (legal : List (Int × Int))
    (h : legal ≠ []) :
    ∃ m, get_strategic_move b me opp legal = some m ∧ m ∈ legal := by
  unfold get_strategic_move
  rcases h1 : pick_best (legal.filter fun m => five_in_row_if_place b m.1 m.2 me)
      legal b me opp false with _ | m1
  case some => exact ⟨m1, by simp only [h1], (pick_best_some_mem _ _ _ _ _ _ _ h1).2⟩
  rcases h2 : pick_best (find_all_threats b opp 4) legal b me opp true with _ | m2
  case some => exact ⟨m2, by simp only [h1, h2], (pick_best_some_mem _ _ _ _ _ _ _ h2).2⟩
  rcases h3 : pick_best (find_all_threats b opp 3) legal b me opp true with _ | m3
  case some => exact ⟨m3, by simp only [h1, h2, h3], (pick_best_some_mem _ _ _ _ _ _ _ h3).2⟩
  rcases h4 : pick_best (find_all_threats b me 3) legal b me opp true with _ | m4
  case some =>
    exact ⟨m4, by simp only [h1, h2, h3, h4], (pick_best_some_mem _ _ _ _ _ _ _ h4).2⟩
  rcases h5 : (if count_stones b < 10 then
      minBy (selKey b me) (blunder_filtered b me opp
        (legal.filter (fun m => decide (center_dist2 m ≤ 6))))
    else none) with _ | m5
  · obtain ⟨m, hm, hmem⟩ := minBy_isSome (selKey b me) (blunder_filtered b me opp legal)
      (bf_ne_nil b me opp legal h)
    refine ⟨m, ?_, bf_mem b me opp legal m hmem⟩
    simp only [h1, h2, h3, h4, h5]
    exact hm
  · refine ⟨m5, by simp only [h1, h2, h3, h4, h5], ?_⟩
    by_cases h10 : count_stones b < 10
    · rw [if_pos h10] at h5
      exact List.mem_of_mem_filter (bf_mem b me opp _ m5 (minBy_mem _ _ _ h5))
    · rw [if_neg h10] at h5
      exact absurd h5 (by simp)

theorem minBy_nil (key : Int × Int → Int × Int) : minBy key [] = none := rfl

theorem gsm_empty (b : Board) (me opp : Char) : get_strategic_move b me opp [] = none := by
  unfold get_strategic_move
  have hpb : ∀ cand av, pick_best cand [] b me opp av = none := by
    intro cand av
    rw [pick_best_none_iff]
    simp
  simp only [hpb, List.filter_nil, bf_nil, minBy_nil, ite_self]

theorem gm_empty (b : Board) (me opp : Char) (reply : Option (Int × Int)) :
    get_move b me opp [] reply = none := by
  unfold get_move get_move_t ask_llm
  cases reply with
  | none => simpa using (ef_none_iff b me opp []).mpr rfl
  | some m0 =>
    simp only
    rw [if_neg (by simp)]
    exact (ef_none_iff b me opp []).mpr rfl

theorem gm_some_mem (b : Board) (me opp : Char) (legal : List (Int × Int))
    (reply : Option (Int × Int)) (h : legal ≠ []) :
    ∃ m, get_move b me opp legal reply = some m ∧ m ∈ legal := by
  unfold get_move get_move_t ask_llm
  cases reply with
  | none => simpa using ef_isSome b me opp legal h
  | some m0 =>
    simp only
    by_cases hc : m0 ∈ legal ∧ move_gives_opp_immediate_win b m0 me opp = false
    · rw [if_pos hc]
      exact ⟨m0, rfl, hc.1⟩
    · rw [if_neg hc]
      exact ef_isSome b me opp legal h

/-! ### The line walk of the threat scanner -/

theorem lineOf_length (s d : Int × Int) (n : Nat) : (lineOf s d n).length = n := by
  simp [lineOf]

theorem lineOf_cons (s d : Int × Int) (n : Nat) :
    lineOf s d (n + 1) = s :: lineOf (s.1 + d.1, s.2 + d.2) d n := by
  simp only [lineOf, List.range_succ_eq_map, List.map_cons, List.map_map]
  congr 1
  · simp
  · have he : ((fun k : Nat => (s.1 + (k : Int) * d.1, s.2 + (k : Int) * d.2)) ∘ Nat.succ) =
        (fun k : Nat => ((s.1 + d.1, s.2 + d.2).1 + (k : Int) * d.1,
          (s.1 + d.1, s.2 + d.2).2 + (k : Int) * d.2)) := by
      funext k
      simp only [Function.comp_apply, Prod.mk.injEq]
      constructor <;> push_cast <;> ring
    rw [he]

theorem lineOf_append (s d : Int × Int) (m n : Nat) :
    lineOf s d (m + n) =
      lineOf s d m ++ lineOf (s.1 + m * d.1, s.2 + m * d.2) d n := by
  induction m generalizing s with
  | zero =>
    simp only [Nat.zero_add, Nat.cast_zero, zero_mul, add_zero, Prod.mk.eta]
    rw [show lineOf s d 0 = [] from rfl, List.nil_append]
  | succ k ih =>
    have he : k + 1 + n = (k + n) + 1 := by omega
    rw [he, lineOf_cons, lineOf_cons, ih, List.cons_append]
    congr 3 <;> push_cast <;> ring

theorem buildLine_eq (fuel : Nat) : ∀ (s1 s2 dr dc : Int),
    ∃ L, L ≤ fuel ∧ buildLine fuel s1 s2 dr dc = lineOf (s1, s2) (dr, dc) L ∧
      (∀ k : Nat, k < L → InR (s1 + k * dr) (s2 + k * dc)) ∧
      (L < fuel → ¬ InR (s1 + L * dr) (s2 + L * dc)) := by
  induction fuel with
  | zero =>
    intro s1 s2 dr dc
    exact ⟨0, Nat.le_refl 0, rfl, fun k hk => absurd hk (by omega), fun h => absurd h (by omega)⟩
  | succ f ih =>
    intro s1 s2 dr dc
    unfold buildLine
    split_ifs with hg
    · obtain ⟨L', hL', heq, hIn, hmax⟩ := ih (s1 + dr) (s2 + dc) dr dc
      refine ⟨L' + 1, by omega, ?_, ?_, ?_⟩
      · rw [heq, lineOf_cons]
      · intro k hk
        match k with
        | 0 => simpa using (show InR s1 s2 from hg)
        | j + 1 =>
          have := hIn j (by omega)
          have e1 : s1 + dr + j * dr = s1 + (j + 1 : Nat) * dr := by push_cast; ring
          have e2 : s2 + dc + j * dc = s2 + (j + 1 : Nat) * dc := by push_cast; ring
          rw [e1, e2] at this
          exact this
      · intro hlt
        have := hmax (by omega)
        have e1 : s1 + dr + L' * dr = s1 + (L' + 1 : Nat) * dr := by push_cast; ring
        have e2 : s2 + dc + L' * dc = s2 + (L' + 1 : Nat) * dc := by push_cast; ring
        rw [e1, e2] at this
        exact this
    · refine ⟨0, Nat.zero_le _, rfl, fun k hk => absurd hk (by omega), fun _ => ?_⟩
      simpa using (show ¬ InR s1 s2 from hg)

theorem lineStart_eq (fuel : Nat) : ∀ (r c dr dc : Int), InR r c →
    ∃ B, B ≤ fuel ∧ lineStart fuel r c dr dc = (r - B * dr, c - B * dc) ∧
      (∀ k : Nat, k ≤ B → InR (r - k * dr) (c - k * dc)) ∧
      (B < fuel → ¬ InR (r - (B + 1 : Nat) * dr) (c - (B + 1 : Nat) * dc)) := by
  induction fuel with
  | zero =>
    intro r c dr dc h
    refine ⟨0, Nat.le_refl 0, by simp [lineStart], ?_, fun hlt => absurd hlt (by omega)⟩
    intro k hk
    have : k = 0 := by omega
    subst this
    simpa using h
  | succ f ih =>
    intro r c dr dc h
    unfold lineStart
    split_ifs with hg
    · obtain ⟨B', hB', heq, hIn, hmax⟩ := ih (r - dr) (c - dc) dr dc
        (show InR (r - dr) (c - dc) from hg)
      refine ⟨B' + 1, by omega, ?_, ?_, ?_⟩
      · rw [heq]
        simp only [Prod.mk.injEq]
        constructor <;> push_cast <;> ring
      · intro k hk
        match k with
        | 0 => simpa using h
        | j + 1 =>
          have := hIn j (by omega)
          have e1 : r - dr - j * dr = r - (j + 1 : Nat) * dr := by push_cast; ring
          have e2 : c - dc - j * dc = c - (j + 1 : Nat) * dc := by push_cast; ring
          rw [e1, e2] at this
          exact this
      · intro hlt
        have := hmax (by omega)
        have e1 : r - dr - (B' + 1 : Nat) * dr = r - (B' + 1 + 1 : Nat) * dr := by
          push_cast; ring
        have e2 : c - dc - (B' + 1 : Nat) * dc = c - (B' + 1 + 1 : Nat) * dc := by
          push_cast; ring
        rw [e1, e2] at this
        exact this
    · refine ⟨0, Nat.zero_le _, by simp, ?_, fun _ => ?_⟩
      · intro k hk
        have hz : k = 0 := by omega
        subst hz
        simpa using h
      · have e1 : r - (0 + 1 : Nat) * dr = r - dr := by push_cast; ring
        have e2 : c - (0 + 1 : Nat) * dc = c - dc := by push_cast; ring
        rw [e1, e2]
        exact hg

theorem step_bound {d : Int × Int} (hd : d ∈ directions) {a1 a2 : Int} (n : Nat)
    (h1 : InR a1 a2) (h2 : InR (a1 + n * d.1) (a2 + n * d.2)) : n ≤ 7 := by
  simp only [InR] at h1 h2
  rcases dir_cases hd with h | h | h | h <;> subst h <;> simp at h2 <;> omega

theorem lineOf_get (w d : Int × Int) (n i : Nat) (hi : i < (lineOf w d n).length) :
    (lineOf w d n).get ⟨i, hi⟩ = wcell w d i := by
  simp [lineOf, wcell, List.get_eq_getElem]

theorem lineOf_window (s d : Int × Int) (L i n : Nat) (h : i + n ≤ L) :
    ((lineOf s d L).drop i).take n = lineOf (s.1 + i * d.1, s.2 + i * d.2) d n := by
  rw [show L = i + (L - i) from (by omega), lineOf_append]
  have hdrop := List.drop_left (lineOf s d i) (lineOf (s.1 + i * d.1, s.2 + i * d.2) d (L - i))
  rw [lineOf_length] at hdrop
  rw [hdrop, show L - i = n + (L - i - n) from (by omega), lineOf_append]
  have htake := List.take_left (lineOf (s.1 + i * d.1, s.2 + i * d.2) d n)
    (lineOf ((s.1 + i * d.1, s.2 + i * d.2).1 + n * d.1,
      (s.1 + i * d.1, s.2 + i * d.2).2 + n * d.2) d (L - i - n))
  rw [lineOf_length] at htake
  rw [htake]

/-- The opponent symbol computed by `_check_line_for_threat` is neither the
player's symbol nor the empty symbol. -/
theorem opp_facts (p : Char) :
    (if p = 'X' then 'O' else 'X') ≠ '.' ∧ (if p = 'X' then 'O' else 'X') ≠ p := by
  by_cases h : p = 'X'
  · subst h; exact ⟨by decide, by decide⟩
  · rw [if_neg h]
    exact ⟨by decide, fun he => h he.symm⟩

/-- In a list holding `count` copies of `p` and exactly one `'.'` and nothing
else, the index found by `index('.')` is the unique non-`p` position. -/
theorem count_unique_empty (p : Char) (hp : p ≠ '.') :
    ∀ l : List Char, l.count p + 1 = l.length → l.count '.' = 1 →
      ∃ j, ∃ hj : j < l.length, l.indexOf '.' = j ∧ l.get ⟨j, hj⟩ = '.' ∧
        ∀ i, ∀ hi : i < l.length, i ≠ j → l.get ⟨i, hi⟩ = p := by
  intro l
  induction l with
  | nil => intro h1 _; simp at h1
  | cons x t ih =>
    intro h1 h2
    rw [List.count_cons] at h1 h2
    simp only [List.length_cons] at h1
    by_cases hx : x = '.'
    · subst hx
      rw [if_pos (by simp)] at h2
      rw [if_neg (by simp [beq_iff_eq]; exact fun h => hp h.symm)] at h1
      have hcp : t.count p = t.length := by omega
      have hall : ∀ y ∈ t, y = p := fun y hy => (List.count_eq_length.mp hcp y hy).symm
      refine ⟨0, by simp, List.indexOf_cons_self _ _, rfl, ?_⟩
      intro i hi hne
      match i with
      | 0 => exact absurd rfl hne
      | i' + 1 =>
        show t.get ⟨i', _⟩ = p
        exact hall _ (t.get_mem _ _)
    · rw [if_neg (by simp [beq_iff_eq]; exact hx)] at h2
      simp only [Nat.add_zero] at h2
      by_cases hxp : x = p
      · subst hxp
        rw [if_pos (by simp)] at h1
        have hcp : t.count x + 1 = t.length := by omega
        obtain ⟨j', hj', hidx, hget, hall⟩ := ih hcp h2
        refine ⟨j' + 1, by simpa using Nat.succ_lt_succ hj', ?_, hget, ?_⟩
        · rw [List.indexOf_cons_ne _ hx, hidx]
        · intro i hi hne
          match i with
          | 0 => exact rfl
          | i' + 1 =>
            show t.get ⟨i', _⟩ = x
            exact hall i' (by simpa using Nat.lt_of_succ_lt_succ hi) (by omega)
      · exfalso
        rw [if_neg (by simp [beq_iff_eq]; exact hxp)] at h1
        have hcp : t.count p = t.length := by omega
        have hall : ∀ y ∈ t, p = y := List.count_eq_length.mp hcp
        have hmem : ('.' : Char) ∈ t := List.count_pos_iff.mp (by omega)
        exact hp (hall '.' hmem)

theorem lineOf_getElem (w d : Int × Int) (n i : Nat) (hi : i < (lineOf w d n).length) :
    (lineOf w d n)[i] = wcell w d i := by
  simp [lineOf, wcell]

/-! ### Content of the scanned 5-windows -/

theorem w5_four_complete (b : Board) (p : Char) (hp : p ≠ '.') (w d : Int × Int) (j : Nat)
    (hj : j < 5)
    (hdot : b (wcell w d j).1 (wcell w d j).2 = '.')
    (hvals : ∀ i : Nat, i < 5 → i ≠ j → b (wcell w d i).1 (wcell w d i).2 = p) :
    wcell w d j ∈ windowThreats5 b p (if p = 'X' then 'O' else 'X') 4 (lineOf w d 5) := by
  obtain ⟨ho1, ho2⟩ := opp_facts p
  have hline : lineOf w d 5 =
      [wcell w d 0, wcell w d 1, wcell w d 2, wcell w d 3, wcell w d 4] := rfl
  rw [hline]
  interval_cases j
  · have h1 := hvals 1 (by omega) (by omega)
    have h2 := hvals 2 (by omega) (by omega)
    have h3 := hvals 3 (by omega) (by omega)
    have h4 := hvals 4 (by omega) (by omega)
    simp only [windowThreats5, List.map_cons, List.map_nil, hdot, h1, h2, h3, h4]
    simp [List.count_cons, List.indexOf_cons_self, List.indexOf_cons_ne, hp, Ne.symm hp,
      ho1, Ne.symm ho1, ho2, Ne.symm ho2]
  · have h0 := hvals 0 (by omega) (by omega)
    have h2 := hvals 2 (by omega) (by omega)
    have h3 := hvals 3 (by omega) (by omega)
    have h4 := hvals 4 (by omega) (by omega)
    simp only [windowThreats5, List.map_cons, List.map_nil, hdot, h0, h2, h3, h4]
    simp [List.count_cons, List.indexOf_cons_self, List.indexOf_cons_ne, hp, Ne.symm hp,
      ho1, Ne.symm ho1, ho2, Ne.symm ho2]
  · have h0 := hvals 0 (by omega) (by omega)
    have h1 := hvals 1 (by omega) (by omega)
    have h3 := hvals 3 (by omega) (by omega)
    have h4 := hvals 4 (by omega) (by omega)
    simp only [windowThreats5, List.map_cons, List.map_nil, hdot, h0, h1, h3, h4]
    simp [List.count_cons, List.indexOf_cons_self, List.indexOf_cons_ne, hp, Ne.symm hp,
      ho1, Ne.symm ho1, ho2, Ne.symm ho2]
  · have h0 := hvals 0 (by omega) (by omega)
    have h1 := hvals 1 (by omega) (by omega)
    have h2 := hvals 2 (by omega) (by omega)
    have h4 := hvals 4 (by omega) (by omega)
    simp only [windowThreats5, List.map_cons, List.map_nil, hdot, h0, h1, h2, h4]
    simp [List.count_cons, List.indexOf_cons_self, List.indexOf_cons_ne, hp, Ne.symm hp,
      ho1, Ne.symm ho1, ho2, Ne.symm ho2]
  · have h0 := hvals 0 (by omega) (by omega)
    have h1 := hvals 1 (by omega) (by omega)
    have h2 := hvals 2 (by omega) (by omega)
    have h3 := hvals 3 (by omega) (by omega)
    simp only [windowThreats5, List.map_cons, List.map_nil, hdot, h0, h1, h2, h3]
    simp [List.count_cons, List.indexOf_cons_self, List.indexOf_cons_ne, hp, Ne.symm hp,
      ho1, Ne.symm ho1, ho2, Ne.symm ho2]

theorem w5_open3_both (b : Board) (p : Char) (hp : p ≠ '.') (w d : Int × Int)
    (h0 : b (wcell w d 0).1 (wcell w d 0).2 = '.')
    (h1 : b (wcell w d 1).1 (wcell w d 1).2 = p)
    (h2 : b (wcell w d 2).1 (wcell w d 2).2 = p)
    (h3 : b (wcell w d 3).1 (wcell w d 3).2 = p)
    (h4 : b (wcell w d 4).1 (wcell w d 4).2 = '.') :
    wcell w d 0 ∈ windowThreats5 b p (if p = 'X' then 'O' else 'X') 3 (lineOf w d 5) ∧
    wcell w d 4 ∈ windowThreats5 b p (if p = 'X' then 'O' else 'X') 3 (lineOf w d 5) := by
  obtain ⟨ho1, ho2⟩ := opp_facts p
  have hline : lineOf w d 5 =
      [wcell w d 0, wcell w d 1, wcell w d 2, wcell w d 3, wcell w d 4] := rfl
  rw [hline]
  simp only [windowThreats5, List.map_cons, List.map_nil, h0, h1, h2, h3, h4]
  simp [List.count_cons, hp, Ne.symm hp, ho1, Ne.symm ho1, ho2, Ne.symm ho2]

theorem w5_four_inv (b : Board) (p oppc : Char) (hp : p ≠ '.') (w d rc : Int × Int)
    (h : rc ∈ windowThreats5 b p oppc 4 (lineOf w d 5)) :
    ∃ j : Nat, j < 5 ∧ rc = wcell w d j ∧ b (wcell w d j).1 (wcell w d j).2 = '.' ∧
      ∀ i : Nat, i < 5 → i ≠ j → b (wcell w d i).1 (wcell w d i).2 = p := by
  simp only [windowThreats5] at h
  have hplen : ((lineOf w d 5).map (fun q => b q.1 q.2)).length = 5 := by
    simp [lineOf]
  have hpg : ∀ i : Nat, ∀ hi : i < ((lineOf w d 5).map (fun q => b q.1 q.2)).length,
      ((lineOf w d 5).map (fun q => b q.1 q.2)).get ⟨i, hi⟩ =
        b (wcell w d i).1 (wcell w d i).2 := by
    intro i hi
    simp [List.get_eq_getElem, List.getElem_map, lineOf, wcell]
  split_ifs at h with hc1 hc2 hc3 hc4
  · obtain ⟨-, hpc, hec, -⟩ := hc1
    obtain ⟨j, hj, hidx, hget, hall⟩ :=
      count_unique_empty p hp ((lineOf w d 5).map (fun q => b q.1 q.2))
        (by rw [hplen]; omega) hec
    have hj5 : j < 5 := by rw [hplen] at hj; exact hj
    refine ⟨j, hj5, ?_, ?_, ?_⟩
    · rw [List.mem_singleton] at h
      rw [h, hidx]
      have hlt : j < (lineOf w d 5).length := by simpa [lineOf] using hj5
      rw [List.getD_eq_getElem _ _ hlt]
      exact lineOf_getElem w d 5 j hlt
    · rw [← hpg j hj]
      exact hget
    · intro i hi hne
      rw [← hpg i (by rw [hplen]; exact hi)]
      exact hall i _ hne
  · exact absurd hc2.1 (by omega)
  · exact absurd hc2.1 (by omega)
  · exact absurd hc4.1 (by omega)
  · simp at h

/-! ### Every fully in-range 5-window is scanned, and every scanned window is
a fully in-range 5-window -/

theorem window_in_scan (b : Board) (p : Char) (target : Nat) (d1 d2 : Int)
    (hd : (d1, d2) ∈ directions) (w : Int × Int)
    (hw : ∀ i : Nat, i < 5 → InR (wcell w (d1, d2) i).1 (wcell w (d1, d2) i).2)
    (rc : Int × Int)
    (hrc : rc ∈ windowThreats5 b p (if p = 'X' then 'O' else 'X') target
      (lineOf w (d1, d2) 5)) :
    rc ∈ find_all_threats b p target := by
  have hInRw : InR w.1 w.2 := by
    have := hw 0 (by omega)
    simpa [wcell] using this
  obtain ⟨B, hB8, hs, hIn, hmax⟩ := lineStart_eq 8 w.1 w.2 d1 d2 hInRw
  have hB7 : B ≤ 7 := by
    refine step_bound hd B (hIn B (Nat.le_refl B)) ?_
    have e1 : w.1 - B * d1 + B * ((d1, d2) : Int × Int).1 = w.1 := by simp
    have e2 : w.2 - B * d2 + B * ((d1, d2) : Int × Int).2 = w.2 := by simp
    rw [e1, e2]; exact hInRw
  obtain ⟨L, hL8, hline, hLin, hLmax⟩ := buildLine_eq 8 (w.1 - B * d1) (w.2 - B * d2) d1 d2
  have hall : ∀ k : Nat, k ≤ B + 4 →
      InR (w.1 - B * d1 + k * d1) (w.2 - B * d2 + k * d2) := by
    intro k hk
    by_cases hkB : k ≤ B
    · have hh := hIn (B - k) (by omega)
      have e1 : w.1 - (B - k : Nat) * d1 = w.1 - B * d1 + k * d1 := by
        have hc : ((B - k : Nat) : Int) = (B : Int) - k := by omega
        rw [hc]; ring
      have e2 : w.2 - (B - k : Nat) * d2 = w.2 - B * d2 + k * d2 := by
        have hc : ((B - k : Nat) : Int) = (B : Int) - k := by omega
        rw [hc]; ring
      rw [e1, e2] at hh; exact hh
    · have hh := hw (k - B) (by omega)
      have e1 : (wcell w (d1, d2) (k - B)).1 = w.1 - B * d1 + k * d1 := by
        simp only [wcell]
        have hc : ((k - B : Nat) : Int) = (k : Int) - B := by omega
        rw [hc]; ring
      have e2 : (wcell w (d1, d2) (k - B)).2 = w.2 - B * d2 + k * d2 := by
        simp only [wcell]
        have hc : ((k - B : Nat) : Int) = (k : Int) - B := by omega
        rw [hc]; ring
      rw [e1, e2] at hh; exact hh
  have hL5 : B + 5 ≤ L := by
    by_contra hcon
    push_neg at hcon
    by_cases hL8' : L < 8
    · exact (hLmax hL8') (hall L (by omega))
    · have hb4 : B + 4 ≤ 7 := by
        refine step_bound hd (B + 4) (by simpa using hall 0 (by omega)) ?_
        have := hall (B + 4) (Nat.le_refl _)
        simpa using this
      omega
  have hwin : ((lineOf (w.1 - B * d1, w.2 - B * d2) (d1, d2) L).drop B).take 5 =
      lineOf w (d1, d2) 5 := by
    rw [lineOf_window _ _ L B 5 (by omega)]
    have e1 : ((w.1 - B * d1, w.2 - B * d2) : Int × Int).1 + B * ((d1, d2) : Int × Int).1
        = w.1 := by simp
    have e2 : ((w.1 - B * d1, w.2 - B * d2) : Int × Int).2 + B * ((d1, d2) : Int × Int).2
        = w.2 := by simp
    rw [e1, e2]
  refine List.mem_flatMap.mpr ⟨w, (scanCells_mem w).mpr hInRw, ?_⟩
  refine List.mem_flatMap.mpr ⟨(d1, d2), hd, ?_⟩
  simp only [check_line_for_threat, hs, hline]
  refine List.mem_append.mpr (Or.inl ?_)
  refine List.mem_flatMap.mpr ⟨B, List.mem_range.mpr ?_, ?_⟩
  · rw [lineOf_length]
    omega
  · rw [hwin]
    exact hrc

theorem scan_shape (b : Board) (p : Char) (rc : Int × Int)
    (h : rc ∈ find_all_threats b p 4) :
    ∃ d1 d2 : Int, (d1, d2) ∈ directions ∧ ∃ w : Int × Int,
      (∀ i : Nat, i < 5 → InR (wcell w (d1, d2) i).1 (wcell w (d1, d2) i).2) ∧
      rc ∈ windowThreats5 b p (if p = 'X' then 'O' else 'X') 4 (lineOf w (d1, d2) 5) := by
  obtain ⟨q, hq, hdm⟩ := List.mem_flatMap.mp h
  obtain ⟨d, hd, hcl⟩ := List.mem_flatMap.mp hdm
  obtain ⟨d1, d2⟩ := d
  refine ⟨d1, d2, hd, ?_⟩
  obtain ⟨L, hL8, hline, hLin, hLmax⟩ :=
    buildLine_eq 8 (lineStart 8 q.1 q.2 d1 d2).1 (lineStart 8 q.1 q.2 d1 d2).2 d1 d2
  simp only [check_line_for_threat, hline] at hcl
  rcases List.mem_append.mp hcl with hfive | hfour
  · obtain ⟨i, hi, hwmem⟩ := List.mem_flatMap.mp hfive
    rw [List.mem_range, lineOf_length] at hi
    have hi5 : i + 5 ≤ L := by omega
    rw [lineOf_window _ _ L i 5 hi5] at hwmem
    refine ⟨((lineStart 8 q.1 q.2 d1 d2).1 + i * d1,
      (lineStart 8 q.1 q.2 d1 d2).2 + i * d2), ?_, hwmem⟩
    intro k hk
    have hh := hLin (i + k) (by omega)
    have e1 : (lineStart 8 q.1 q.2 d1 d2).1 + (i + k : Nat) * d1 =
        (wcell ((lineStart 8 q.1 q.2 d1 d2).1 + i * d1,
          (lineStart 8 q.1 q.2 d1 d2).2 + i * d2) (d1, d2) k).1 := by
      simp only [wcell]
      push_cast
      ring
    have e2 : (lineStart 8 q.1 q.2 d1 d2).2 + (i + k : Nat) * d2 =
        (wcell ((lineStart 8 q.1 q.2 d1 d2).1 + i * d1,
          (lineStart 8 q.1 q.2 d1 d2).2 + i * d2) (d1, d2) k).2 := by
      simp only [wcell]
      push_cast
      ring
    rw [e1, e2] at hh
    exact hh
  · rw [if_neg (by simp)] at hfour
    exact absurd hfour (List.not_mem_nil rc)

/-! ### Bridging windows and the run-based win description -/

theorem window_to_spec (b : Board) (p : Char) (d1 d2 : Int) (hd : (d1, d2) ∈ directions)
    (w : Int × Int) (j : Nat) (hj : j < 5)
    (hw : ∀ i : Nat, i < 5 → InR (wcell w (d1, d2) i).1 (wcell w (d1, d2) i).2)
    (hdot : b (wcell w (d1, d2) j).1 (wcell w (d1, d2) j).2 = '.')
    (hvals : ∀ i : Nat, i < 5 → i ≠ j →
      b (wcell w (d1, d2) i).1 (wcell w (d1, d2) i).2 = p) :
    would_win_spec b (wcell w (d1, d2) j).1 (wcell w (d1, d2) j).2 p := by
  refine ⟨hdot, (d1, d2), hd, j, 4 - j, by omega, ?_, ?_⟩
  · intro k h1 hk
    have hij : j - k < 5 := by omega
    have hv := hvals (j - k) hij (by omega)
    have hIn := hw (j - k) hij
    have e1 : (wcell w (d1, d2) j).1 + k * -((d1, d2) : Int × Int).1 =
        (wcell w (d1, d2) (j - k)).1 := by
      simp only [wcell]
      have hc : ((j - k : Nat) : Int) = (j : Int) - k := by omega
      rw [hc]; ring
    have e2 : (wcell w (d1, d2) j).2 + k * -((d1, d2) : Int × Int).2 =
        (wcell w (d1, d2) (j - k)).2 := by
      simp only [wcell]
      have hc : ((j - k : Nat) : Int) = (j : Int) - k := by omega
      rw [hc]; ring
    rw [e1, e2]
    exact ⟨hIn, hv⟩
  · intro k h1 hk
    have hij : j + k < 5 := by omega
    have hv := hvals (j + k) hij (by omega)
    have hIn := hw (j + k) hij
    have e1 : (wcell w (d1, d2) j).1 + k * ((d1, d2) : Int × Int).1 =
        (wcell w (d1, d2) (j + k)).1 := by
      simp only [wcell]; push_cast; ring
    have e2 : (wcell w (d1, d2) j).2 + k * ((d1, d2) : Int × Int).2 =
        (wcell w (d1, d2) (j + k)).2 := by
      simp only [wcell]; push_cast; ring
    rw [e1, e2]
    exact ⟨hIn, hv⟩

theorem spec_to_window (b : Board) (p : Char) (r c : Int) (hin : InR r c)
    (hspec : would_win_spec b r c p) :
    ∃ d1 d2 : Int, (d1, d2) ∈ directions ∧ ∃ w : Int × Int, ∃ j : Nat, j < 5 ∧
      (r, c) = wcell w (d1, d2) j ∧
      (∀ i : Nat, i < 5 → InR (wcell w (d1, d2) i).1 (wcell w (d1, d2) i).2) ∧
      b (wcell w (d1, d2) j).1 (wcell w (d1, d2) j).2 = '.' ∧
      ∀ i : Nat, i < 5 → i ≠ j →
        b (wcell w (d1, d2) i).1 (wcell w (d1, d2) i).2 = p := by
  obtain ⟨hdot, d, hd, back, fwd, hbf, hback, hfwd⟩ := hspec
  obtain ⟨d1, d2⟩ := d
  simp only [specRun] at hback hfwd
  refine ⟨d1, d2, hd, (r - ((4 - min fwd 4 : Nat) : Int) * d1,
    c - ((4 - min fwd 4 : Nat) : Int) * d2), 4 - min fwd 4, by omega, ?_, ?_, ?_, ?_⟩
  all_goals
    have hc1 : ∀ i : Nat, (wcell (r - ((4 - min fwd 4 : Nat) : Int) * d1,
        c - ((4 - min fwd 4 : Nat) : Int) * d2) (d1, d2) i).1 =
        r + ((i : Int) - ((4 - min fwd 4 : Nat) : Int)) * d1 := by
      intro i; simp only [wcell]; ring
    have hc2 : ∀ i : Nat, (wcell (r - ((4 - min fwd 4 : Nat) : Int) * d1,
        c - ((4 - min fwd 4 : Nat) : Int) * d2) (d1, d2) i).2 =
        c + ((i : Int) - ((4 - min fwd 4 : Nat) : Int)) * d2 := by
      intro i; simp only [wcell]; ring
  · rw [Prod.ext_iff]
    rw [hc1, hc2]
    constructor <;> simp
  · intro i hi
    rw [hc1, hc2]
    rcases lt_trichotomy i (4 - min fwd 4) with hlt | heq | hgt
    · have hk1 : 1 ≤ 4 - min fwd 4 - i := by omega
      have hk2 : 4 - min fwd 4 - i ≤ back := by omega
      have hh := (hback (4 - min fwd 4 - i) hk1 hk2).1
      have e1 : r + ((4 - min fwd 4 - i : Nat) : Int) * -d1 =
          r + ((i : Int) - ((4 - min fwd 4 : Nat) : Int)) * d1 := by
        have hcc : ((4 - min fwd 4 - i : Nat) : Int) =
            ((4 - min fwd 4 : Nat) : Int) - i := by omega
        rw [hcc]; ring
      have e2 : c + ((4 - min fwd 4 - i : Nat) : Int) * -d2 =
          c + ((i : Int) - ((4 - min fwd 4 : Nat) : Int)) * d2 := by
        have hcc : ((4 - min fwd 4 - i : Nat) : Int) =
            ((4 - min fwd 4 : Nat) : Int) - i := by omega
        rw [hcc]; ring
      rw [e1, e2] at hh
      exact hh
    · subst heq
      simpa using hin
    · have hk1 : 1 ≤ i - (4 - min fwd 4) := by omega
      have hk2 : i - (4 - min fwd 4) ≤ fwd := by omega
      have hh := (hfwd (i - (4 - min fwd 4)) hk1 hk2).1
      have e1 : r + ((i - (4 - min fwd 4) : Nat) : Int) * d1 =
          r + ((i : Int) - ((4 - min fwd 4 : Nat) : Int)) * d1 := by
        have hcc : ((i - (4 - min fwd 4) : Nat) : Int) =
            (i : Int) - ((4 - min fwd 4 : Nat) : Int) := by omega
        rw [hcc]
      have e2 : c + ((i - (4 - min fwd 4) : Nat) : Int) * d2 =
          c + ((i : Int) - ((4 - min fwd 4 : Nat) : Int)) * d2 := by
        have hcc : ((i - (4 - min fwd 4) : Nat) : Int) =
            (i : Int) - ((4 - min fwd 4 : Nat) : Int) := by omega
        rw [hcc]
      rw [e1, e2] at hh
      exact hh
  · rw [hc1, hc2]
    simpa using hdot
  · intro i hi hne
    rw [hc1, hc2]
    rcases lt_trichotomy i (4 - min fwd 4) with hlt | heq | hgt
    · have hk1 : 1 ≤ 4 - min fwd 4 - i := by omega
      have hk2 : 4 - min fwd 4 - i ≤ back := by omega
      have hh := (hback (4 - min fwd 4 - i) hk1 hk2).2
      have e1 : r + ((4 - min fwd 4 - i : Nat) : Int) * -d1 =
          r + ((i : Int) - ((4 - min fwd 4 : Nat) : Int)) * d1 := by
        have hcc : ((4 - min fwd 4 - i : Nat) : Int) =
            ((4 - min fwd 4 : Nat) : Int) - i := by omega
        rw [hcc]; ring
      have e2 : c + ((4 - min fwd 4 - i : Nat) : Int) * -d2 =
          c + ((i : Int) - ((4 - min fwd 4 : Nat) : Int)) * d2 := by
        have hcc : ((4 - min fwd 4 - i : Nat) : Int) =
            ((4 - min fwd 4 : Nat) : Int) - i := by omega
        rw [hcc]; ring
      rw [e1, e2] at hh
      exact hh
    · exact absurd heq hne
    · have hk1 : 1 ≤ i - (4 - min fwd 4) := by omega
      have hk2 : i - (4 - min fwd 4) ≤ fwd := by omega
      have hh := (hfwd (i - (4 - min fwd 4)) hk1 hk2).2
      have e1 : r + ((i - (4 - min fwd 4) : Nat) : Int) * d1 =
          r + ((i : Int) - ((4 - min fwd 4 : Nat) : Int)) * d1 := by
        have hcc : ((i - (4 - min fwd 4) : Nat) : Int) =
            (i : Int) - ((4 - min fwd 4 : Nat) : Int) := by omega
        rw [hcc]
      have e2 : c + ((i - (4 - min fwd 4) : Nat) : Int) * d2 =
          c + ((i : Int) - ((4 - min fwd 4 : Nat) : Int)) * d2 := by
        have hcc : ((i - (4 - min fwd 4) : Nat) : Int) =
            (i : Int) - ((4 - min fwd 4 : Nat) : Int) := by omega
        rw [hcc]
      rw [e1, e2] at hh
      exact hh

/-- The scan with target 4 finds exactly the in-range cells at which the win
oracle fires. -/
theorem scan4_iff (b : Board) (p : Char) (hp : p ≠ '.') (rc : Int × Int) :
    rc ∈ find_all_threats b p 4 ↔
      InR rc.1 rc.2 ∧ five_in_row_if_place b rc.1 rc.2 p = true := by
  constructor
  · intro h
    obtain ⟨d1, d2, hd, w, hw, hwmem⟩ := scan_shape b p rc h
    obtain ⟨j, hj, hrc, hdot, hvals⟩ := w5_four_inv b p _ hp w (d1, d2) rc hwmem
    rw [hrc]
    refine ⟨hw j hj, ?_⟩
    exact (five_iff b _ _ p).mpr (window_to_spec b p d1 d2 hd w j hj hw hdot hvals)
  · rintro ⟨hin, hfive⟩
    have hspec := (five_iff b rc.1 rc.2 p).mp hfive
    obtain ⟨d1, d2, hd, w, j, hj, hrc, hw, hdot, hvals⟩ :=
      spec_to_window b p rc.1 rc.2 hin hspec
    have hmem := w5_four_complete b p hp w (d1, d2) j hj hdot hvals
    have hfin := window_in_scan b p 4 d1 d2 hd w hw (wcell w (d1, d2) j) hmem
    have hrc2 : rc = wcell w (d1, d2) j := Prod.mk.eta.symm.trans hrc
    rw [hrc2]
    exact hfin

/-! ### Parsing -/

theorem parse_lines_shape (lines : List (List Char)) :
    (parse_board_lines lines).length = 8 ∧
    ∀ row ∈ parse_board_lines lines, row.length = 8 ∧
      ∀ ch ∈ row, ch = 'X' ∨ ch = 'O' ∨ ch = '.' := by
  simp only [parse_board_lines]
  constructor
  · rw [List.length_take, List.length_append, List.length_replicate]
    omega
  · intro row hrow
    have hrow2 := List.take_subset _ _ hrow
    rcases List.mem_append.mp hrow2 with hmem | hmem
    · have hf := List.mem_filter.mp hmem
      refine ⟨of_decide_eq_true hf.2, ?_⟩
      obtain ⟨line, hline, hrfl⟩ := List.mem_map.mp hf.1
      intro ch hch
      rw [← hrfl] at hch
      have hcf := List.mem_filter.mp hch
      exact of_decide_eq_true hcf.2
    · have hrepl := List.eq_of_mem_replicate hmem
      subst hrepl
      refine ⟨List.length_replicate 8 _, ?_⟩
      intro ch hch
      have hdot := List.eq_of_mem_replicate hch
      subst hdot
      right; right; rfl

/-! ### The claims -/

/-- C2: `_five_in_row_if_place` returns false on an occupied cell; on an empty
in-range cell it returns true iff some one of the four directions has a
contiguous same-stone run through the cell (forward plus backward, the cell
counted once, stopping at board boundaries) of length at least 5. -/
theorem c2_would_win_characterization (b : Board) (r c : Int) (p : Char)
    (h1 : 0 ≤ r) (h2 : r < 8) (h3 : 0 ≤ c) (h4 : c < 8) :
    (b r c ≠ '.' → five_in_row_if_place b r c p = false) ∧
    (five_in_row_if_place b r c p = true ↔ would_win_spec b r c p) := by
  refine ⟨?_, five_iff b r c p⟩
  intro hocc
  cases hb : five_in_row_if_place b r c p
  · rfl
  · exact absurd ((five_iff b r c p).mp hb).1 hocc

/-- Witness for C2 at Scenario B: row 3 holds X at columns 1-4, and placing X
at the empty cell (3, 5) completes a horizontal five. -/
theorem c2_would_win_characterization_witness :
    ((scenarioB 3 5 ≠ '.' → five_in_row_if_place scenarioB 3 5 'X' = false) ∧
      (five_in_row_if_place scenarioB 3 5 'X' = true ↔ would_win_spec scenarioB 3 5 'X')) ∧
    five_in_row_if_place scenarioB 3 5 'X' = true :=
  ⟨c2_would_win_characterization scenarioB 3 5 'X' (by decide) (by decide) (by decide)
    (by decide), by decide⟩

/-- C4 counterexample: with an empty legal-move list, neither the strategic
chain nor the turn decision returns the central coordinate (4, 4) — both
produce no move at all, because the source's final `min()` call has an empty
candidate pool (a ValueError in Python), and no (4, 4) fallback exists
anywhere in the code. -/
theorem c4_counterexample :
    get_strategic_move emptyBoard 'X' 'O' [] ≠ some ((4 : Int), (4 : Int)) ∧
    get_move emptyBoard 'X' 'O' [] none ≠ some ((4 : Int), (4 : Int)) := by
  constructor <;> decide

/-- C4 amended: for every board, when the legal-move list is empty both the
strategic chain and the turn decision produce no move (the embedding's `none`,
modelling the ValueError that Python's `min` raises on an empty sequence);
there is no (4, 4) fallback. -/
theorem c4_empty_legal_no_move (b : Board) (me opp : Char)
    (reply : Option (Int × Int)) :
    get_strategic_move b me opp [] = none ∧ get_move b me opp [] reply = none :=
  ⟨gsm_empty b me opp, gm_empty b me opp reply⟩

/-- C5 counterexample: when the first model reply is unusable, the model is
NOT invoked a second time — the invocation count of the turn is 1, not 2. -/
theorem c5_counterexample :
    ¬ ((get_move_t emptyBoard 'X' 'O' [((0 : Int), (0 : Int))]
        (fun _ => none)).2 = 2) := by
  decide

/-- C5 amended: `get_move` awaits the model exactly once per turn — there is
no repair request; a null extracted reply goes directly to the deterministic
fallback. -/
theorem c5_single_invocation (b : Board) (me opp : Char) (legal : List (Int × Int))
    (llm : Nat → Option (Int × Int)) :
    (get_move_t b me opp legal llm).2 = 1 ∧
    (get_move_t b me opp legal (fun _ => none)).1 = emergency_fallback b me opp legal :=
  ⟨rfl, rfl⟩

/-- C7: `_move_gives_opp_immediate_win` is true on an occupied cell; on an
empty cell it is true iff, after placing `me` there, some in-range empty cell
lets `opp` complete five-in-a-row. -/
theorem c7_blunder_characterization (b : Board) (mv : Int × Int) (me opp : Char) :
    (b mv.1 mv.2 ≠ '.' → move_gives_opp_immediate_win b mv me opp = true) ∧
    (b mv.1 mv.2 = '.' →
      (move_gives_opp_immediate_win b mv me opp = true ↔
        ∃ rr cc : Int, InR rr cc ∧ place b mv.1 mv.2 me rr cc = '.' ∧
          five_in_row_if_place (place b mv.1 mv.2 me) rr cc opp = true)) := by
  constructor
  · intro hocc
    unfold move_gives_opp_immediate_win move_gives_opp_immediate_win_st
    rw [if_pos hocc]
  · intro hemp
    unfold move_gives_opp_immediate_win move_gives_opp_immediate_win_st
    rw [if_neg (fun hc => hc hemp)]
    show (blunder_scan opp scanCells (place b mv.1 mv.2 me)).1 = true ↔ _
    rw [blunder_scan_iff]
    constructor
    · rintro ⟨q, hq, hdot, hfive⟩
      exact ⟨q.1, q.2, (scanCells_mem q).mp hq, hdot, hfive⟩
    · rintro ⟨rr, cc, hin, hdot, hfive⟩
      exact ⟨(rr, cc), (scanCells_mem (rr, cc)).mpr hin, hdot, hfive⟩

/-- Witness for C7: on the double-four board, playing X at (5, 5) is a
one-ply blunder, exhibited by the opponent's winning reply at (0, 4). -/
theorem c7_blunder_characterization_witness :
    move_gives_opp_immediate_win doubleFourBoard ((5 : Int), (5 : Int)) 'X' 'O' = true :=
  ((c7_blunder_characterization doubleFourBoard ((5 : Int), (5 : Int)) 'X' 'O').2
    (by decide)).mpr ⟨0, 4, by decide, by decide, by decide⟩

/-- C8: the hypothetical-placement oracles restore the board on every return
path, and repeating a call on the returned board yields the same result. -/
theorem c8_no_residual_mutation (b : Board) (r c : Int) (mv : Int × Int)
    (p me opp : Char) :
    (five_in_row_if_place_st b r c p).2 = b ∧
    (move_gives_opp_immediate_win_st b mv me opp).2 = b ∧
    (five_in_row_if_place_st (five_in_row_if_place_st b r c p).2 r c p).1 =
      (five_in_row_if_place_st b r c p).1 ∧
    (move_gives_opp_immediate_win_st
        (move_gives_opp_immediate_win_st b mv me opp).2 mv me opp).1 =
      (move_gives_opp_immediate_win_st b mv me opp).1 := by
  refine ⟨five_st_board b r c p, move_st_board b mv me opp, ?_, ?_⟩
  · rw [five_st_board]
  · rw [move_st_board]

/-- C9: with a non-empty legal-move list, both the strategic chain and the
turn decision return a move, and it is a member of the legal-move list. -/
theorem c9_result_always_legal (b : Board) (me opp : Char)
    (legal : List (Int × Int)) (reply : Option (Int × Int)) (h : legal ≠ []) :
    (∃ m, get_strategic_move b me opp legal = some m ∧ m ∈ legal) ∧
    (∃ m, get_move b me opp legal reply = some m ∧ m ∈ legal) :=
  ⟨gsm_some_mem b me opp legal h, gm_some_mem b me opp legal reply h⟩

/-- Witness for C9 on the empty board with a singleton legal-move list and a
null model reply. -/
theorem c9_result_always_legal_witness :
    (∃ m, get_strategic_move emptyBoard 'X' 'O' [((3 : Int), (3 : Int))] = some m ∧
      m ∈ [((3 : Int), (3 : Int))]) ∧
    (∃ m, get_move emptyBoard 'X' 'O' [((3 : Int), (3 : Int))] none = some m ∧
      m ∈ [((3 : Int), (3 : Int))]) :=
  c9_result_always_legal emptyBoard 'X' 'O' [((3 : Int), (3 : Int))] none (by simp)

/-- C10: for every input string, the parsed board is exactly 8 rows of
exactly 8 cells, each cell one of 'X', 'O', '.'. -/
theorem c10_parse_always_8x8 (s : String) :
    (parse_board_from_string s).length = 8 ∧
    ∀ row ∈ parse_board_from_string s, row.length = 8 ∧
      ∀ ch ∈ row, ch = 'X' ∨ ch = 'O' ∨ ch = '.' :=
  parse_lines_shape _

/-- Witness for C10 on a malformed input: two stray lines, one line of 9
tokens, one valid row. -/
theorem c10_parse_always_8x8_witness :
    (parse_board_from_string "garbage\nXXOO..XO\nXXOO..XOX\nhello").length = 8 ∧
    ∀ row ∈ parse_board_from_string "garbage\nXXOO..XO\nXXOO..XOX\nhello",
      row.length = 8 ∧ ∀ ch ∈ row, ch = 'X' ∨ ch = 'O' ∨ ch = '.' :=
  c10_parse_always_8x8 "garbage\nXXOO..XO\nXXOO..XOX\nhello"

/-- C1: for every board and stone, the 4-threat scan returns exactly the set
of in-range cells at which the place-and-count win oracle fires — the
pattern-match derivation and the oracle agree on "one move from five". -/
theorem c1_scan_matches_oracle (b : Board) (p : Char) (hp : p = 'X' ∨ p = 'O')
    (r c : Int) :
    (r, c) ∈ find_all_threats b p 4 ↔
      InR r c ∧ five_in_row_if_place b r c p = true := by
  have hp' : p ≠ '.' := by rcases hp with h | h <;> subst h <;> decide
  simpa using scan4_iff b p hp' (r, c)

/-- Witness for C1 at Scenario B: (3, 5) completes the horizontal four and is
reported by the scan. -/
theorem c1_scan_matches_oracle_witness :
    (((3, 5) : Int × Int) ∈ find_all_threats scenarioB 'X' 4 ↔
      InR 3 5 ∧ five_in_row_if_place scenarioB 3 5 'X' = true) ∧
    ((3, 5) : Int × Int) ∈ find_all_threats scenarioB 'X' 4 :=
  ⟨c1_scan_matches_oracle scenarioB 'X' (Or.inl rfl) 3 5, by decide⟩

/-- C3 counterexample: on a board where O has two separate four-threats, every
legal block candidate is a one-ply blunder for X, yet stage 2 (`_pick_best` on
the opponent four-threats, with blunder avoidance on) still returns a move
instead of producing none and falling through. -/
theorem c3_counterexample :
    ((find_all_threats doubleFourBoard 'O' 4).filter
        (fun m => decide (m ∈ doubleFourLegal)) ≠ [] ∧
      ∀ m ∈ (find_all_threats doubleFourBoard 'O' 4).filter
        (fun m => decide (m ∈ doubleFourLegal)),
        move_gives_opp_immediate_win doubleFourBoard m 'X' 'O' = true) ∧
    (pick_best (find_all_threats doubleFourBoard 'O' 4) doubleFourLegal doubleFourBoard
        'X' 'O' true).isSome = true :=
  ⟨⟨by decide, by decide⟩, by decide⟩

/-- C3 amended: stage 2 produces no move only when no four-threat candidate is
legal; whenever at least one is legal — even if every legal candidate is a
one-ply blunder — `_pick_best` falls back to the unfiltered candidate list and
returns one of them. -/
theorem c3_stage2_ignores_all_blunder (b : Board) (me opp : Char)
    (legal : List (Int × Int))
    (h : (find_all_threats b opp 4).filter (fun m => decide (m ∈ legal)) ≠ []) :
    ∃ m, pick_best (find_all_threats b opp 4) legal b me opp true = some m ∧
      m ∈ find_all_threats b opp 4 ∧ m ∈ legal := by
  match hpb : pick_best (find_all_threats b opp 4) legal b me opp true with
  | none => exact absurd ((pick_best_none_iff _ _ _ _ _ _).mp hpb) h
  | some m =>
    have hmm := pick_best_some_mem _ _ _ _ _ _ m hpb
    exact ⟨m, rfl, hmm.1, hmm.2⟩

/-- Witness for C3 amended at the double-four board. -/
theorem c3_stage2_ignores_all_blunder_witness :
    ∃ m, pick_best (find_all_threats doubleFourBoard 'O' 4) doubleFourLegal
        doubleFourBoard 'X' 'O' true = some m ∧
      m ∈ find_all_threats doubleFourBoard 'O' 4 ∧ m ∈ doubleFourLegal :=
  c3_stage2_ignores_all_blunder doubleFourBoard 'X' 'O' doubleFourLegal (by decide)

/-- C6: whenever a 5-cell window along one of the four directions matches the
contiguous open-three pattern empty-stone-stone-stone-empty, the 3-threat scan
includes both end cells of that window. -/
theorem c6_open_three_both_ends (b : Board) (p : Char) (hp : p = 'X' ∨ p = 'O')
    (d1 d2 : Int) (hd : (d1, d2) ∈ directions) (w : Int × Int)
    (hw : ∀ i : Nat, i < 5 → InR (w.1 + i * d1) (w.2 + i * d2))
    (h0 : b w.1 w.2 = '.')
    (h1 : b (w.1 + d1) (w.2 + d2) = p)
    (h2 : b (w.1 + 2 * d1) (w.2 + 2 * d2) = p)
    (h3 : b (w.1 + 3 * d1) (w.2 + 3 * d2) = p)
    (h4 : b (w.1 + 4 * d1) (w.2 + 4 * d2) = '.') :
    w ∈ find_all_threats b p 3 ∧
    (w.1 + 4 * d1, w.2 + 4 * d2) ∈ find_all_threats b p 3 := by
  have hp' : p ≠ '.' := by rcases hp with h | h <;> subst h <;> decide
  have hw' : ∀ i : Nat, i < 5 → InR (wcell w (d1, d2) i).1 (wcell w (d1, d2) i).2 := by
    intro i hi
    have := hw i hi
    simpa [wcell] using this
  have h0' : b (wcell w (d1, d2) 0).1 (wcell w (d1, d2) 0).2 = '.' := by
    simpa [wcell] using h0
  have h1' : b (wcell w (d1, d2) 1).1 (wcell w (d1, d2) 1).2 = p := by
    simpa [wcell] using h1
  have h2' : b (wcell w (d1, d2) 2).1 (wcell w (d1, d2) 2).2 = p := by
    simpa [wcell] using h2
  have h3' : b (wcell w (d1, d2) 3).1 (wcell w (d1, d2) 3).2 = p := by
    simpa [wcell] using h3
  have h4' : b (wcell w (d1, d2) 4).1 (wcell w (d1, d2) 4).2 = '.' := by
    simpa [wcell] using h4
  obtain ⟨hm0, hm4⟩ := w5_open3_both b p hp' w (d1, d2) h0' h1' h2' h3' h4'
  constructor
  · have := window_in_scan b p 3 d1 d2 hd w hw' _ hm0
    simpa [wcell] using this
  · have := window_in_scan b p 3 d1 d2 hd w hw' _ hm4
    simpa [wcell] using this

/-- Witness for C6 at Scenario C: O at (2,2)-(2,4) with (2,1) and (2,5) empty;
the 3-threat scan for O flags both (2,1) and (2,5). -/
theorem c6_open_three_both_ends_witness :
    ((2, 1) : Int × Int) ∈ find_all_threats scenarioC 'O' 3 ∧
    ((2, 5) : Int × Int) ∈ find_all_threats scenarioC 'O' 3 := by
  have hc6 := c6_open_three_both_ends scenarioC 'O' (Or.inr rfl) 0 1 (by decide)
    ((2 : Int), (1 : Int)) (by intro i hi; interval_cases i <;> decide)
    (by decide) (by decide) (by decide) (by decide) (by decide)
  simpa using hc6

end VEGomoku
